import Mathlib

/-!
Shallow embedding of the rope library (`src/proj/node.cpp`, `src/proj/rope.cpp`).

A `rope_node` in the source is reached through a `std::unique_ptr<rope_node>`
(`handle`), which is either null or points to a node carrying a weight, two
child handles and a string fragment.  We embed the handle itself as the
inductive `Handle`, with `Handle.null` for the null pointer, so every child
slot of a node is again a `Handle` exactly as in the source.

Strings are `List Char`.  `size_t` values are embedded as `Nat`; the two
places where the source's wrap-around arithmetic is observable (the
`start+len` bound checks and `w-index` in `splitAt`) use explicit mod-2^64
helpers `add64` / `sub64`.

Fallible operations return `Except Err _` (or pair an `Option Err` with the
post-call state for the mutators whose object survives a throw).  `Err.oob`
is the `std::invalid_argument` out-of-bounds error the library throws itself,
`Err.range` is the `std::out_of_range` thrown by `std::string::substr`, and
`Err.ub` marks executions that are undefined behavior in the source (null
dereference, vector index out of bounds).
-/

/-- 2^64, the modulus of `size_t` arithmetic. -/
def SIZE64 : Nat := 18446744073709551616

/-- `size_t` addition (wraps mod 2^64). -/
def add64 (a b : Nat) : Nat := (a + b) % SIZE64

/-- `size_t` subtraction (wraps mod 2^64; faithful for arguments below 2^64). -/
def sub64 (a b : Nat) : Nat := if b ≤ a then a - b else a + SIZE64 - b

/-- The observable outcomes of a failing call. -/
inductive Err where
  | oob
  | range
  | ub
deriving DecidableEq

/-- A `rope_node::handle` (`std::unique_ptr<rope_node>`): null, or a node with
`weight_`, `left_`, `right_`, `fragment_`. -/
inductive Handle where
  | null
  | node (weight : Nat) (left right : Handle) (fragment : List Char)
deriving DecidableEq

namespace Rope

/-- Leaf-node constructor `rope_node(const std::string&)`: weight is the
fragment's length, both children null. -/
def mkLeaf (s : List Char) : Handle := .node s.length .null .null s

/-- `rope_node::getLength`.  The source never calls it through a null handle
(every call site guards with `== nullptr ? 0 : ...`); we fold that guard into
the null equation. -/
def getLength : Handle → Nat
  | .null => 0
  | .node w l r _ => if l = Handle.null ∧ r = Handle.null then w else w + getLength r

/-- Internal-node constructor `rope_node(handle l, handle r)`: dereferences
`l` to compute the weight (undefined behavior when `l` is null), stores the
handles as given, with an empty fragment. -/
def mkConcat : Handle → Handle → Except Err Handle
  | .null, _ => .error .ub
  | l, r => .ok (.node (getLength l) l r [])

/-- The deep copy performed by the `rope_node` copy constructor. -/
def copyNode : Handle → Handle
  | .null => .null
  | .node w l r f => .node w (copyNode l) (copyNode r) f

/-- `rope_node::treeToString`.  Internal nodes concatenate the children's
strings (null children contribute `""` via the source's guards). -/
def treeToString : Handle → List Char
  | .null => []
  | .node _ l r f =>
    if l = Handle.null ∧ r = Handle.null then f else treeToString l ++ treeToString r

/-- `rope_node::getDepth` (guards on null children as in the source). -/
def getDepth : Handle → Nat
  | .null => 0
  | .node _ l r _ =>
    if l = Handle.null ∧ r = Handle.null then 0 else max (getDepth l + 1) (getDepth r + 1)

/-- `rope_node::getCharByIndex`.  At a leaf, an index at or past the weight
throws the out-of-bounds error, otherwise `fragment_[index]` is read (reading
past the backing string is undefined behavior).  At a non-leaf the source
dereferences the chosen child unconditionally, so a null child is undefined
behavior. -/
def getCharByIndex : Handle → Nat → Except Err Char
  | .null, _ => .error .ub
  | .node w l r f, index =>
    if l = Handle.null ∧ r = Handle.null then
      if index ≥ w then .error .oob
      else
        match f[index]? with
        | some c => .ok c
        | none => .error .ub
    else
      if index < w then getCharByIndex l index
      else getCharByIndex r (index - w)

/-- `std::string::substr(pos, count)`: throws `std::out_of_range` when
`pos > size()`, otherwise yields at most `count` characters from `pos`. -/
def cppSubstr (f : List Char) (pos cnt : Nat) : Except Err (List Char) :=
  if pos > f.length then .error .range else .ok ((f.drop pos).take cnt)

/-- `rope_node::getSubstring`.  Faithful to the source, including the
`start+len` comparison in `size_t` and the second recursive call passing `w`
(not `0`) as its start. -/
def getSubstring : Handle → Nat → Nat → Except Err (List Char)
  | .null, _, _ => .error .ub
  | .node w l r f, start, len =>
    if l = Handle.null ∧ r = Handle.null then
      if len < w then cppSubstr f start len else .ok f
    else if start < w then
      match (if l = Handle.null then Except.ok [] else getSubstring l start len) with
      | .error e => .error e
      | .ok lResult =>
        if add64 start len > w then
          match (if r = Handle.null then Except.ok [] else getSubstring r w (len - (w - start))) with
          | .error e => .error e
          | .ok rResult => .ok (lResult ++ rResult)
        else .ok lResult
    else
      if r = Handle.null then .ok [] else getSubstring r (start - w) len

/-- `rope_node::getLeaves` collects the leaf nodes in order (the source
collects pointers; the values are what the rebalancer reads through them). -/
def getLeaves : Handle → List Handle
  | .null => []
  | h@(.node _ l r _) =>
    if l = Handle.null ∧ r = Handle.null then [h] else getLeaves l ++ getLeaves r

/-- The free function `splitAt(handle, size_t)`.  Dereferences its argument
(null input is undefined behavior).  A leaf is split with two `substr` calls;
an internal node is reused as the left half (`right_ = nullptr`,
`weight_ = index`) when the split point falls left of the weight. -/
def splitAt : Handle → Nat → Except Err (Handle × Handle)
  | .null, _ => .error .ub
  | .node w l r f, index =>
    if l = Handle.null ∧ r = Handle.null then
      match cppSubstr f 0 index with
      | .error e => .error e
      | .ok s1 =>
        match cppSubstr f index (sub64 w index) with
        | .error e => .error e
        | .ok s2 => .ok (mkLeaf s1, mkLeaf s2)
    else if index < w then
      match splitAt l index with
      | .error e => .error e
      | .ok (ll, lr) =>
        match mkConcat lr r with
        | .error e => .error e
        | .ok second => .ok (.node index ll .null f, second)
    else if w < index then
      match splitAt r (index - w) with
      | .error e => .error e
      | .ok (rl, rr) => .ok (.node w l rl f, rr)
    else
      .ok (l, r)

/-- `fib`'s iteration (`next = a + b; a = b; b = next`), run `k` times. -/
def fibLoop : Nat → Nat → Nat → Nat
  | 0, _, b => b
  | k + 1, a, b => fibLoop k b (a + b)

/-- The free function `fib(n)` of `rope.cpp` (the `int` overflow for n ≥ 47
is not modelled; all uses in the claims stay far below it). -/
def fib (n : Nat) : Nat := if n = 0 then 0 else fibLoop (n - 1) 0 1

/-- The loop of `buildFibList`, with fuel (the source's `while (a <= len)`
runs at most `len + 3` times since `a` walks the Fibonacci sequence). -/
def buildFibAux : Nat → Nat → Nat → Nat → List Nat
  | 0, _, _, _ => []
  | fuel + 1, a, b, len =>
    if a ≤ len then (if a > 0 then [b] else []) ++ buildFibAux fuel b (a + b) len
    else []

/-- The free function `buildFibList(len)` of `rope.cpp`. -/
def buildFibList (len : Nat) : List Nat := buildFibAux (len + 3) 0 1 len

/-- The `rope` class: a single root handle (`root_`). -/
structure rope where
  root : Handle
deriving DecidableEq

/-- `rope::rope(const string&)`; `rope::rope()` delegates to it with `""`. -/
def rope.fromString (s : List Char) : rope := ⟨mkLeaf s⟩

/-- `rope::toString`. -/
def rope.toString (r : rope) : List Char :=
  if r.root = Handle.null then [] else treeToString r.root

/-- `rope::length`. -/
def rope.length (r : rope) : Nat :=
  if r.root = Handle.null then 0 else getLength r.root

/-- `rope::at` (named `atIndex` because `at` is reserved in Lean). -/
def rope.atIndex (r : rope) (index : Nat) : Except Err Char :=
  if r.root = Handle.null then .error .oob else getCharByIndex r.root index

/-- `rope::substring`: bound check (with `size_t` addition) at the façade,
then `root_->getSubstring` (a null root would be dereferenced). -/
def rope.substring (r : rope) (start len : Nat) : Except Err (List Char) :=
  if start > r.length ∨ add64 start len > r.length then .error .oob
  else getSubstring r.root start len

/-- `rope::rope(const rope&)`: dereferences the source's root and deep-copies
the tree (the intermediate stack copy in the source is value-identical). -/
def rope.copy (r : rope) : Except Err rope :=
  match r.root with
  | .null => .error .ub
  | h => .ok ⟨copyNode h⟩

/-- `rope::insert(size_t, const rope&)`: bound check, snapshot copy of the
argument, split of the own root, then two concat constructions. -/
def rope.insert (r : rope) (i : Nat) (arg : rope) : Except Err rope :=
  if r.length < i then .error .oob
  else
    match rope.copy arg with
    | .error e => .error e
    | .ok tmp =>
      match splitAt r.root i with
      | .error e => .error e
      | .ok (first, second) =>
        match mkConcat first tmp.root with
        | .error e => .error e
        | .ok tmpConcat =>
          match mkConcat tmpConcat second with
          | .error e => .error e
          | .ok newRoot => .ok ⟨newRoot⟩

/-- `rope::insert(size_t, const string&)` delegates to the rope overload. -/
def rope.insertS (r : rope) (i : Nat) (s : List Char) : Except Err rope :=
  r.insert i (rope.fromString s)

/-- `rope::append(const rope&)`. -/
def rope.append (r : rope) (arg : rope) : Except Err rope :=
  match rope.copy arg with
  | .error e => .error e
  | .ok tmp =>
    match mkConcat r.root tmp.root with
    | .error e => .error e
    | .ok newRoot => .ok ⟨newRoot⟩

/-- `rope::append(const string&)`: builds a rope from the string, then
concatenates. -/
def rope.appendS (r : rope) (s : List Char) : Except Err rope :=
  match mkConcat r.root (rope.fromString s).root with
  | .error e => .error e
  | .ok newRoot => .ok ⟨newRoot⟩

/-- `rope::rdelete`.  The pair is (thrown error, state of the rope after the
call): after the façade check the root has been moved out, so an error thrown
by a later `substr` leaves the rope empty. -/
def rope.rdelete (r : rope) (start len : Nat) : Option Err × rope :=
  if start > r.length ∨ add64 start len > r.length then (some .oob, r)
  else
    match splitAt r.root start with
    | .error e => (some e, ⟨Handle.null⟩)
    | .ok (first, second) =>
      match splitAt second len with
      | .error e => (some e, ⟨Handle.null⟩)
      | .ok (_, keep) =>
        match mkConcat first keep with
        | .error e => (some e, ⟨Handle.null⟩)
        | .ok newRoot => (none, ⟨newRoot⟩)

/-- The rebalancer's inner `while(i < max_i && len >= intervals[i+1])` loop:
merge occupied slots into `acc` while advancing `i`.  The fuel covers the
bounded number of `i` increments; vector reads use `getD`/`get?` (every read
reached from a state the source reaches is in bounds). -/
def innerLoop : Nat → List Nat → Nat → List Handle → Nat → Handle → Nat →
    List Handle × Nat × Handle × Nat
  | 0, _, _, nodes, i, acc, len => (nodes, i, acc, len)
  | fuel + 1, intervals, maxI, nodes, i, acc, len =>
    if i < maxI ∧ len ≥ intervals.getD (i + 1) 0 then
      let slot := nodes.getD i Handle.null
      if slot = Handle.null then innerLoop fuel intervals maxI nodes (i + 1) acc len
      else
        let acc2 := Handle.node (getLength (copyNode slot)) (copyNode slot) (copyNode acc) []
        let len2 := getLength acc2
        let nodes2 := if len2 ≥ intervals.getD (i + 1) 0 then nodes.set i Handle.null else nodes
        innerLoop fuel intervals maxI nodes2 (i + 1) acc2 len2
    else (nodes, i, acc, len)

/-- The rebalancer's outer `while(!inserted)` loop for one leaf. -/
def outerLoop : Nat → List Nat → Nat → List Handle → Nat → Handle → Nat → Nat →
    List Handle × Nat
  | 0, _, _, nodes, _, _, _, currMax => (nodes, currMax)
  | fuel + 1, intervals, maxI, nodes, i, acc, len, currMax =>
    let (nodes1, i1, acc1, _len1) := innerLoop (maxI + 1) intervals maxI nodes i acc len
    if nodes1.getD i1 Handle.null = Handle.null then
      (nodes1.set i1 acc1, if i1 > currMax then i1 else currMax)
    else
      let slot := nodes1.getD i1 Handle.null
      let acc2 := Handle.node (getLength (copyNode slot)) (copyNode slot) (copyNode acc1) []
      let len2 := getLength acc2
      let nodes2 := if len2 ≥ intervals.getD (i1 + 1) 0 then nodes1.set i1 Handle.null else nodes1
      outerLoop fuel intervals maxI nodes2 i1 acc2 len2 currMax

/-- The rebalancer's final gathering loop: `acc = move(nodes[currMax])` (an
out-of-bounds vector read — undefined behavior — when the slot vector is
empty), then concatenation with every occupied lower slot. -/
def finalConcat (nodes : List Handle) (currMax : Nat) : Except Err Handle :=
  match nodes.get? currMax with
  | none => .error .ub
  | some acc0 =>
    let nodes1 := nodes.set currMax Handle.null
    .ok ((List.range (currMax + 1)).reverse.foldl
      (fun acc idx =>
        match nodes1.getD idx Handle.null with
        | .null => acc
        | nd => Handle.node (getLength acc) acc (copyNode nd) []) acc0)

/-- `rope::isBalanced`: empty (null root) ropes are balanced; otherwise the
length must reach `fib(depth + 2)`. -/
def rope.isBalanced (r : rope) : Bool :=
  if r.root = Handle.null then true
  else decide (rope.length r ≥ fib (getDepth r.root + 2))

/-- `rope::balance`.  A no-op when already balanced; otherwise builds the
Fibonacci interval table, inserts each non-empty leaf into the slot vector
(`max_i = intervals.size() - 1` underflows in `size_t` when the table is
empty), and gathers the slots.  The pair is (error, post-call state); on the
undefined-behavior path the object's state is whatever it was. -/
def rope.balance (r : rope) : Option Err × rope :=
  if r.isBalanced then (none, r)
  else
    let intervals := buildFibList r.length
    let maxI := sub64 intervals.length 1
    let nodes0 : List Handle := List.replicate intervals.length Handle.null
    let leaves := getLeaves r.root
    let (nodes, currMax) := leaves.foldl
      (fun (st : List Handle × Nat) leaf =>
        let len := getLength leaf
        if len > 0 then
          outerLoop (intervals.length + 2) intervals maxI st.1 0 (copyNode leaf) len st.2
        else st)
      (nodes0, 0)
    match finalConcat nodes currMax with
    | .error e => (some e, r)
    | .ok newRoot => (none, ⟨newRoot⟩)

/-- `rope::operator=`: dereferences the right-hand side's root and installs a
deep copy (the `this == &rhs` short-circuit returns the same value). -/
def rope.assign (_r rhs : rope) : Except Err rope :=
  match rhs.root with
  | .null => .error .ub
  | h => .ok ⟨copyNode h⟩

/-! ## Invariants

`wf` is the well-formedness the code actually maintains on every node of a
tree: a leaf's weight is its fragment's length; a non-leaf has a present left
child whose represented length is the node's weight.  (The code does NOT
maintain the documented invariant that both children of a non-leaf are
present: `splitAt` leaves nodes with a null right child behind.)

`rsf` ("right spine full") additionally requires that no node on the path of
right children from the root lacks its right child; the public operations
keep the root's right spine full, and splitting such a tree at any valid
index never dereferences a null handle. -/

/-- Node-wise well-formedness maintained by the code. -/
def wf : Handle → Bool
  | .null => true
  | .node w l r f =>
    if l = Handle.null ∧ r = Handle.null then decide (w = f.length)
    else decide (l ≠ Handle.null) && decide (w = getLength l) && wf l && wf r

/-- Every node on the right spine has its right child present. -/
def rsf : Handle → Bool
  | .null => true
  | .node _ l r _ =>
    if l = Handle.null ∧ r = Handle.null then true
    else decide (r ≠ Handle.null) && rsf r

/-- Well-formedness of a rope: an absent root, or a `wf` tree whose right
spine is full. -/
def wfRope (r : rope) : Bool :=
  match r.root with
  | .null => true
  | h => wf h && rsf h

/-- The invariant stated by the specification (and by `node.hpp`'s comment):
every non-leaf node has both children present, an empty fragment, and weight
equal to the length of the string represented by its left subtree. -/
def claimInvariant : Handle → Bool
  | .null => true
  | .node w l r f =>
    if l = Handle.null ∧ r = Handle.null then true
    else
      decide (l ≠ Handle.null) && decide (r ≠ Handle.null) && decide (f = []) &&
        decide (w = (treeToString l).length) && claimInvariant l && claimInvariant r

/-! ## Basic lemmas -/

theorem copyNode_id (h : Handle) : copyNode h = h := by
  induction h with
  | null => rfl
  | node w l r f ihl ihr => simp [copyNode, ihl, ihr]

theorem getLength_eq_length_treeToString (h : Handle) (hw : wf h = true) :
    getLength h = (treeToString h).length := by
  induction h with
  | null => rfl
  | node w l r f ihl ihr =>
    by_cases hc : l = Handle.null ∧ r = Handle.null
    · simp only [wf, if_pos hc, decide_eq_true_eq] at hw
      simp [getLength, treeToString, if_pos hc, hw]
    · simp only [wf, if_neg hc, Bool.and_eq_true, decide_eq_true_eq] at hw
      obtain ⟨⟨⟨-, hwl⟩, hl⟩, hr⟩ := hw
      simp [getLength, treeToString, if_neg hc, hwl, ihl hl, ihr hr]

theorem mkConcat_ok (l r : Handle) (h : l ≠ Handle.null) :
    mkConcat l r = .ok (.node (getLength l) l r []) := by
  cases l with
  | null => exact absurd rfl h
  | node => rfl

theorem wf_mkLeaf (s : List Char) : wf (mkLeaf s) = true := by
  simp [wf, mkLeaf]

theorem treeToString_mkLeaf (s : List Char) : treeToString (mkLeaf s) = s := by
  simp [treeToString, mkLeaf]

theorem getLength_null_eq : getLength Handle.null = 0 := rfl

/-- Core correctness of `splitAt` on well-formed trees: for `i ≤ length` it
succeeds and the two halves represent the first `i` characters and the rest.
The second half is a non-null handle whenever the cut is strictly inside the
string, or the input's right spine is full. -/
theorem splitAt_spec (n : Handle) : ∀ i : Nat, n ≠ Handle.null → wf n = true →
    i ≤ getLength n →
    ∃ a b, splitAt n i = .ok (a, b) ∧
      a ≠ Handle.null ∧ wf a = true ∧ wf b = true ∧
      treeToString a = (treeToString n).take i ∧
      treeToString b = (treeToString n).drop i ∧
      ((i < getLength n ∨ rsf n = true) → b ≠ Handle.null) := by
  induction n with
  | null => intro i hnn; exact absurd rfl hnn
  | node w l r f ihl ihr =>
    intro i _ hw hi
    by_cases hc : l = Handle.null ∧ r = Handle.null
    · -- leaf
      simp only [wf, if_pos hc, decide_eq_true_eq] at hw
      simp only [getLength, if_pos hc] at hi
      refine ⟨mkLeaf (f.take i), mkLeaf (f.drop i), ?_, by simp [mkLeaf],
        wf_mkLeaf _, wf_mkLeaf _, ?_, ?_, fun _ => by simp [mkLeaf]⟩
      · simp only [splitAt, if_pos hc, cppSubstr, sub64]
        rw [if_neg (by omega : ¬ 0 > f.length), if_neg (by omega : ¬ i > f.length),
          if_pos (by omega : i ≤ w)]
        have hlen : (f.drop i).length = w - i := by simp [hw]
        rw [List.drop_zero, List.take_of_length_le (le_of_eq hlen)]
      · rw [treeToString_mkLeaf]
        simp [treeToString, if_pos hc]
      · rw [treeToString_mkLeaf]
        simp [treeToString, if_pos hc]
    · -- internal (or half) node
      simp only [wf, if_neg hc, Bool.and_eq_true, decide_eq_true_eq] at hw
      obtain ⟨⟨⟨hlnn, hwl⟩, hl⟩, hr⟩ := hw
      simp only [getLength, if_neg hc] at hi
      have htsl : (treeToString l).length = w := by
        rw [← getLength_eq_length_treeToString l hl, hwl]
      have htsr : (treeToString r).length = getLength r :=
        (getLength_eq_length_treeToString r hr).symm
      rcases Nat.lt_trichotomy i w with hiw | hiw | hiw
      · -- split point inside the left subtree
        obtain ⟨ll, lr, hsp, hlla, hwll, hwlr, htsll, htslr, hlrnn⟩ :=
          ihl i hlnn hl (by omega)
        have hlr : lr ≠ Handle.null := hlrnn (Or.inl (by omega))
        refine ⟨.node i ll .null f, .node (getLength lr) lr r [], ?_, by simp, ?_, ?_, ?_, ?_,
          fun _ => by simp⟩
        · simp only [splitAt, if_neg hc, if_pos hiw, hsp, mkConcat_ok lr r hlr]
        · have : getLength ll = i := by
            rw [getLength_eq_length_treeToString ll hwll, htsll, List.length_take]
            omega
          simp only [wf]
          rw [if_neg (by simp [hlla])]
          simp [hlla, this, hwll]
        · simp only [wf]
          rw [if_neg (by simp [hlr])]
          simp [hlr, hwlr, hr]
        · simp only [treeToString, if_neg hc]
          rw [if_neg (by simp [hlla])]
          simp only [treeToString, List.append_nil, htsll]
          rw [List.take_append_eq_append_take]
          rw [(by omega : i - (treeToString l).length = 0)]
          simp
        · simp only [treeToString, if_neg hc]
          rw [if_neg (by simp [hlr])]
          simp only [htslr]
          rw [List.drop_append_eq_append_drop]
          rw [(by omega : i - (treeToString l).length = 0)]
          simp
      · -- split point exactly at the weight: clean cut
        refine ⟨l, r, ?_, hlnn, hl, hr, ?_, ?_, ?_⟩
        · simp only [splitAt, if_neg hc]
          rw [if_neg (by omega : ¬ i < w), if_neg (by omega : ¬ w < i)]
        · simp only [treeToString, if_neg hc]
          rw [← hiw] at htsl
          rw [← htsl, List.take_left]
        · simp only [treeToString, if_neg hc]
          rw [← hiw] at htsl
          rw [← htsl, List.drop_left]
        · rintro (hlt | hrs)
          · intro hrn
            simp only [getLength, if_neg hc] at hlt
            rw [hrn, getLength_null_eq] at hlt
            omega
          · simp only [rsf, if_neg hc, Bool.and_eq_true, decide_eq_true_eq] at hrs
            exact hrs.1
      · -- split point inside the right subtree
        have hrnn : r ≠ Handle.null := by
          intro hrn
          rw [hrn, getLength_null_eq] at hi
          omega
        obtain ⟨rl, rr, hsp, hrla, hwrl, hwrr, htsrl, htsrr, hrrnn⟩ :=
          ihr (i - w) hrnn hr (by omega)
        refine ⟨.node w l rl f, rr, ?_, by simp, ?_, hwrr, ?_, ?_, ?_⟩
        · simp only [splitAt, if_neg hc]
          rw [if_neg (by omega : ¬ i < w), if_pos hiw]
          simp only [hsp]
        · simp only [wf]
          rw [if_neg (by simp [hlnn])]
          simp [hlnn, hwl, hl, hwrl]
        · have h1 : List.take i (treeToString l) = treeToString l :=
            List.take_of_length_le (by omega)
          have h2 : i - (treeToString l).length = i - w := by rw [htsl]
          simp only [treeToString, if_neg hc]
          rw [if_neg (by simp [hlnn])]
          simp only [treeToString, htsrl]
          rw [List.take_append_eq_append_take, h1, h2]
        · have h2 : i - (treeToString l).length = i - w := by rw [htsl]
          have h3 : List.drop i (treeToString l) = [] :=
            List.drop_eq_nil_of_le (by omega)
          simp only [treeToString, if_neg hc, htsrr]
          rw [List.drop_append_eq_append_drop, h3, h2]
          simp
        · rintro (hlt | hrs)
          · simp only [getLength, if_neg hc] at hlt
            exact hrrnn (Or.inl (by omega))
          · simp only [rsf, if_neg hc, Bool.and_eq_true, decide_eq_true_eq] at hrs
            exact hrrnn (Or.inr hrs.2)

/-- On a well-formed tree, an in-range index resolves to the corresponding
character of the represented string. -/
theorem getCharByIndex_ok (n : Handle) : ∀ (i : Nat) (c : Char), wf n = true →
    (treeToString n)[i]? = some c → getCharByIndex n i = .ok c := by
  induction n with
  | null => intro i c _ hc; simp [treeToString] at hc
  | node w l r f ihl ihr =>
    intro i c hw hc
    by_cases hcl : l = Handle.null ∧ r = Handle.null
    · simp only [wf, if_pos hcl, decide_eq_true_eq] at hw
      simp only [treeToString, if_pos hcl] at hc
      have hilt : i < f.length := (List.getElem?_eq_some_iff.mp hc).1
      simp only [getCharByIndex, if_pos hcl]
      rw [if_neg (by omega : ¬ i ≥ w), hc]
    · simp only [wf, if_neg hcl, Bool.and_eq_true, decide_eq_true_eq] at hw
      obtain ⟨⟨⟨hlnn, hwl⟩, hl⟩, hr⟩ := hw
      simp only [treeToString, if_neg hcl] at hc
      have htsl : (treeToString l).length = w := by
        rw [← getLength_eq_length_treeToString l hl, hwl]
      simp only [getCharByIndex, if_neg hcl]
      by_cases hiw : i < w
      · rw [if_pos hiw]
        rw [List.getElem?_append_left (by omega)] at hc
        exact ihl i c hl hc
      · rw [if_neg hiw]
        rw [List.getElem?_append_right (by omega)] at hc
        rw [htsl] at hc
        exact ihr (i - w) c hr hc

/-- On a well-formed tree with a full right spine, an out-of-range index is
reported as the out-of-bounds error (never a null dereference). -/
theorem getCharByIndex_oob (n : Handle) : ∀ i : Nat, n ≠ Handle.null →
    wf n = true → rsf n = true → getLength n ≤ i →
    getCharByIndex n i = .error .oob := by
  induction n with
  | null => intro i hnn; exact absurd rfl hnn
  | node w l r f ihl ihr =>
    intro i _ hw hrs hi
    by_cases hcl : l = Handle.null ∧ r = Handle.null
    · simp only [wf, if_pos hcl, decide_eq_true_eq] at hw
      simp only [getLength, if_pos hcl] at hi
      simp only [getCharByIndex, if_pos hcl]
      rw [if_pos (by omega : i ≥ w)]
    · simp only [wf, if_neg hcl, Bool.and_eq_true, decide_eq_true_eq] at hw
      obtain ⟨⟨⟨-, -⟩, -⟩, hr⟩ := hw
      simp only [rsf, if_neg hcl, Bool.and_eq_true, decide_eq_true_eq] at hrs
      obtain ⟨hrnn, hrsr⟩ := hrs
      simp only [getLength, if_neg hcl] at hi
      simp only [getCharByIndex, if_neg hcl]
      rw [if_neg (by omega : ¬ i < w)]
      exact ihr (i - w) hrnn hr hrsr (by omega)

theorem copy_ok (x : rope) (hx : x.root ≠ Handle.null) : rope.copy x = .ok ⟨x.root⟩ := by
  obtain ⟨xr⟩ := x
  cases xr with
  | null => exact absurd rfl hx
  | node w l r f => simp [rope.copy, copyNode_id]

/-! ## The claims -/

/-- C1: the claim states that for `start + len ≤ length(r)` the call
`substring(r, start, len)` returns `to_string(r)[start : start+len]` with
length exactly `len`.  The code violates it: on the rope built by
constructing `"ab"` and appending `"cd"` (an internal node over two leaves),
`substring(1, 3)` returns `"abcd"` (length 4) although the requested slice is
`"bcd"` (length 3).  The recursion passes `w` instead of `0` as the start of
the right-hand call and the leaf case hands back the whole fragment, so both
the content and the length of the result are wrong. -/
theorem c1_substring_mismatch_eval :
    ((rope.fromString ['a', 'b']).appendS ['c', 'd']).bind
        (fun r => rope.substring r 1 3) = .ok ['a', 'b', 'c', 'd'] ∧
    ((rope.fromString ['a', 'b']).appendS ['c', 'd']).map
        (fun r => ((rope.toString r).drop 1).take 3) = .ok ['b', 'c', 'd'] :=
  ⟨rfl, rfl⟩

/-- C2: the claim states that every rope of length 0 reports
`is_balanced() = true` and that `balance()` is a no-op on it.  The code
violates it: `rope()` and `rope("")` produce a root that is a leaf with an
empty fragment, for which `isBalanced` computes `0 ≥ fib(2) = 1`, i.e.
`false` (only the absent-root representation is reported balanced). -/
theorem c2_empty_rope_not_balanced_eval :
    rope.isBalanced (rope.fromString []) = false := rfl

/-- C3: the claim states that every rope reachable through the public
operations has, at every non-leaf node, both children present, an empty
fragment, and weight equal to its left subtree's length.  The code violates
it: after constructing `"ab"`, appending `"cd"` and inserting `"x"` at index
1, the tree contains a non-leaf node whose right child is null (`splitAt`
reuses the split node as the left half with `right_ = nullptr`). -/
theorem c3_invariant_violated_eval :
    (((rope.fromString ['a', 'b']).appendS ['c', 'd']).bind
        (fun r => r.insertS 1 ['x'])).map
      (fun r => claimInvariant r.root) = .ok false := rfl

/-- C4 counterexample: the claim demands `IndexOutOfBounds` and an unchanged
rope whenever `start + len` exceeds the length as unbounded integers.  On the
rope `"ab"` with `start = 1`, `len = 2^64 - 1`, the unbounded sum `2^64`
exceeds the length 2, yet the façade's `size_t` sum wraps to 0, so no
`IndexOutOfBounds` is signalled: `substring` silently returns `"ab"`, and
`rdelete` proceeds, throws `std::out_of_range` from `substr` after the root
has been consumed, and leaves the rope empty (content changed). -/
theorem c4_overflow_counterexample :
    1 + (SIZE64 - 1) > (rope.fromString ['a', 'b']).length ∧
    rope.substring (rope.fromString ['a', 'b']) 1 (SIZE64 - 1) = .ok ['a', 'b'] ∧
    rope.rdelete (rope.fromString ['a', 'b']) 1 (SIZE64 - 1) =
      (some Err.range, ⟨Handle.null⟩) :=
  ⟨by decide, rfl, rfl⟩

/-- C4 amended: with the range comparison taken the way the code computes it
— `start > length` or `(start + len) mod 2^64 > length` — both `substring`
and `delete` signal `IndexOutOfBounds` before touching the tree, leaving the
rope's content byte-for-byte unchanged. -/
theorem c4_amended_oob_check (r : rope) (start len : Nat)
    (h : start > rope.length r ∨ add64 start len > rope.length r) :
    rope.substring r start len = .error .oob ∧
    rope.rdelete r start len = (some .oob, r) := by
  constructor
  · simp only [rope.substring, if_pos h]
  · simp only [rope.rdelete, if_pos h]

/-- Witness for the amended C4 at `rope("ab")`, `start = 3`, `len = 0`. -/
theorem c4_amended_oob_check_witness :
    rope.substring (rope.fromString ['a', 'b']) 3 0 = .error .oob ∧
    rope.rdelete (rope.fromString ['a', 'b']) 3 0 =
      (some .oob, rope.fromString ['a', 'b']) :=
  c4_amended_oob_check (rope.fromString ['a', 'b']) 3 0 (by decide)

/-- C5: the claim states that after `balance()` every rope satisfies
`is_balanced()` with unchanged content.  The code violates it at the rope of
length 0 with a leaf root (the default-constructed rope): it is reported
unbalanced, so `balance()` runs, builds an empty Fibonacci interval table and
an empty slot vector, and then reads `nodes[currMaxInterval]` — element 0 of
an empty `std::vector` — which is undefined behavior, not a rebalanced
rope. -/
theorem c5_balance_empty_rope_ub_eval :
    rope.balance (rope.fromString []) = (some Err.ub, rope.fromString []) := rfl

/-- C6: for every rope `r` with a well-formed tree, an index `i ≤ length(r)`
and an inserted rope `x` (including `x = r` itself — the model is pure, so
the snapshot copy the code takes is the value of `x`), `insert(r, i, x)`
succeeds and its string is `to_string(r)[0:i] ++ to_string(x) ++
to_string(r)[i:]`; for `i > length(r)` it signals `IndexOutOfBounds`. -/
theorem c6_insert_spec (r x : rope) (i : Nat) (hr : r.root ≠ Handle.null)
    (hw : wf r.root = true) (hx : x.root ≠ Handle.null) :
    (i ≤ rope.length r →
      ∃ r2, rope.insert r i x = .ok r2 ∧
        rope.toString r2 =
          (rope.toString r).take i ++ rope.toString x ++ (rope.toString r).drop i) ∧
    (rope.length r < i → rope.insert r i x = .error .oob) := by
  constructor
  · intro hle
    have hlen : rope.length r = getLength r.root := by
      simp [rope.length, if_neg hr]
    obtain ⟨a, b, hsp, hann, -, -, hta, htb, -⟩ :=
      splitAt_spec r.root i hr hw (by omega)
    refine ⟨⟨.node (getLength (Handle.node (getLength a) a x.root []))
        (.node (getLength a) a x.root []) b []⟩, ?_, ?_⟩
    · simp only [rope.insert, if_neg (by omega : ¬ rope.length r < i),
        copy_ok x hx, hsp, mkConcat_ok a x.root hann,
        mkConcat_ok (Handle.node (getLength a) a x.root []) b (by simp)]
    · have h1 : ¬ (Handle.node (getLength a) a x.root [] = Handle.null ∧ b = Handle.null) := by
        simp
      have h2 : ¬ (a = Handle.null ∧ x.root = Handle.null) := by simp [hann]
      simp only [rope.toString, if_neg (by simp : ¬ (Handle.node
        (getLength (Handle.node (getLength a) a x.root []))
        (Handle.node (getLength a) a x.root []) b [] = Handle.null)),
        if_neg hr, if_neg hx]
      simp only [treeToString, if_neg h1, if_neg h2]
      rw [hta, htb]
  · intro hlt
    simp only [rope.insert, if_pos hlt]

/-- Witness for C6 at `r = rope("ab")`, `x = rope("x")`, `i = 1`. -/
theorem c6_insert_spec_witness :
    (1 ≤ rope.length (rope.fromString ['a', 'b']) →
      ∃ r2, rope.insert (rope.fromString ['a', 'b']) 1 (rope.fromString ['x']) = .ok r2 ∧
        rope.toString r2 =
          (rope.toString (rope.fromString ['a', 'b'])).take 1 ++
            rope.toString (rope.fromString ['x']) ++
            (rope.toString (rope.fromString ['a', 'b'])).drop 1) ∧
    (rope.length (rope.fromString ['a', 'b']) < 1 →
      rope.insert (rope.fromString ['a', 'b']) 1 (rope.fromString ['x']) = .error .oob) :=
  c6_insert_spec (rope.fromString ['a', 'b']) (rope.fromString ['x']) 1
    (by decide) (by decide) (by decide)

/-- C7: for every rope `r` with a well-formed tree whose right spine is full
(as the public operations maintain) and every `(s, l)` with
`s + l ≤ length(r)`, `delete(r, s, l)` throws nothing and the rope's string
becomes `to_string(r)[0:s] ++ to_string(r)[s+l:]`. -/
theorem c7_delete_spec (r : rope) (s l : Nat) (hr : r.root ≠ Handle.null)
    (hw : wf r.root = true) (hrs : rsf r.root = true)
    (hsl : s + l ≤ rope.length r) :
    (rope.rdelete r s l).1 = none ∧
    rope.toString (rope.rdelete r s l).2 =
      (rope.toString r).take s ++ (rope.toString r).drop (s + l) := by
  have hlen : rope.length r = getLength r.root := by
    simp [rope.length, if_neg hr]
  have hts : getLength r.root = (treeToString r.root).length :=
    getLength_eq_length_treeToString r.root hw
  have hcheck : ¬ (s > rope.length r ∨ add64 s l > rope.length r) := by
    push_neg
    exact ⟨by omega, le_trans (Nat.mod_le _ _) (by omega)⟩
  obtain ⟨a, b, hsp1, hann, -, hwb, hta, htb, hbnn⟩ :=
    splitAt_spec r.root s hr hw (by omega)
  have hb : b ≠ Handle.null := hbnn (Or.inr hrs)
  have hlb : getLength b = (treeToString r.root).length - s := by
    rw [getLength_eq_length_treeToString b hwb, htb, List.length_drop]
  obtain ⟨c, d, hsp2, -, -, -, -, htd, -⟩ :=
    splitAt_spec b l hb hwb (by omega)
  have h1 : ¬ (a = Handle.null ∧ d = Handle.null) := by simp [hann]
  constructor
  · simp only [rope.rdelete, if_neg hcheck, hsp1, hsp2, mkConcat_ok a d hann]
  · simp only [rope.rdelete, if_neg hcheck, hsp1, hsp2, mkConcat_ok a d hann]
    simp only [rope.toString, if_neg (by simp : ¬ (Handle.node (getLength a) a d [] =
      Handle.null)), if_neg hr]
    simp only [treeToString, if_neg h1]
    rw [hta, htd, htb, List.drop_drop]

/-- Witness for C7 at `rope("abcd")`, `s = 1`, `l = 2`. -/
theorem c7_delete_spec_witness :
    (rope.rdelete (rope.fromString ['a', 'b', 'c', 'd']) 1 2).1 = none ∧
    rope.toString (rope.rdelete (rope.fromString ['a', 'b', 'c', 'd']) 1 2).2 =
      (rope.toString (rope.fromString ['a', 'b', 'c', 'd'])).take 1 ++
        (rope.toString (rope.fromString ['a', 'b', 'c', 'd'])).drop (1 + 2) :=
  c7_delete_spec (rope.fromString ['a', 'b', 'c', 'd']) 1 2
    (by decide) (by decide) (by decide) (by decide)

/-- C8: for every (non-null) node `n` with a well-formed tree and every
`i ≤ length(n)`, `splitAt(n, i)` succeeds with two parts representing the
first `i` characters and the remaining characters, whose concatenation is the
original string. -/
theorem c8_splitAt_spec (n : Handle) (i : Nat) (hnn : n ≠ Handle.null)
    (hw : wf n = true) (hi : i ≤ getLength n) :
    ∃ a b, splitAt n i = .ok (a, b) ∧
      treeToString a = (treeToString n).take i ∧
      treeToString b = (treeToString n).drop i ∧
      treeToString a ++ treeToString b = treeToString n := by
  obtain ⟨a, b, hsp, -, -, -, hta, htb, -⟩ := splitAt_spec n i hnn hw hi
  exact ⟨a, b, hsp, hta, htb, by rw [hta, htb, List.take_append_drop]⟩

/-- Witness for C8 at the leaf `"ab"`, `i = 1`. -/
theorem c8_splitAt_spec_witness :
    ∃ a b, splitAt (mkLeaf ['a', 'b']) 1 = .ok (a, b) ∧
      treeToString a = (treeToString (mkLeaf ['a', 'b'])).take 1 ∧
      treeToString b = (treeToString (mkLeaf ['a', 'b'])).drop 1 ∧
      treeToString a ++ treeToString b = treeToString (mkLeaf ['a', 'b']) :=
  c8_splitAt_spec (mkLeaf ['a', 'b']) 1 (by decide) (by decide) (by decide)

/-- C9: for every well-formed rope `r` (empty root allowed) and every index,
`at(r, i)` returns character `i` of `to_string(r)` when `i < length(r)` and
signals `IndexOutOfBounds` otherwise (in particular for every `i` on an
empty rope). -/
theorem c9_at_spec (r : rope) (i : Nat) (h : wfRope r = true) :
    rope.atIndex r i =
      (match (rope.toString r)[i]? with
        | some c => Except.ok c
        | none => Except.error Err.oob) := by
  cases hr : r.root with
  | null => simp [rope.atIndex, rope.toString, hr, treeToString]
  | node w l rr f =>
    simp only [wfRope, hr, Bool.and_eq_true] at h
    obtain ⟨hw, hrs⟩ := h
    have hne : Handle.node w l rr f ≠ Handle.null := by simp
    simp only [rope.atIndex, rope.toString, hr, if_neg hne]
    cases hts : (treeToString (Handle.node w l rr f))[i]? with
    | some c => exact getCharByIndex_ok _ i c hw hts
    | none =>
      have hge : (treeToString (Handle.node w l rr f)).length ≤ i :=
        List.getElem?_eq_none_iff.mp hts
      exact getCharByIndex_oob _ i hne hw hrs
        (by rw [getLength_eq_length_treeToString _ hw]; omega)

/-- Witness for C9 at `rope("ab")`, indices 1 (in range) and 5 (out of
range). -/
theorem c9_at_spec_witness :
    rope.atIndex (rope.fromString ['a', 'b']) 1 =
      (match (rope.toString (rope.fromString ['a', 'b']))[1]? with
        | some c => Except.ok c
        | none => Except.error Err.oob) ∧
    rope.atIndex (rope.fromString ['a', 'b']) 5 =
      (match (rope.toString (rope.fromString ['a', 'b']))[5]? with
        | some c => Except.ok c
        | none => Except.error Err.oob) :=
  ⟨c9_at_spec (rope.fromString ['a', 'b']) 1 (by decide),
   c9_at_spec (rope.fromString ['a', 'b']) 5 (by decide)⟩

/-- C10: assignment installs a deep copy of the right-hand side, so the
assigned rope's value — and hence its string — is exactly `s`'s value;
self-assignment (`s := s`) also yields `s` unchanged.  The model is pure
(the copy constructor clones the whole tree, proved by `copyNode_id`), so
later mutation of either rope produces a new value and cannot affect the
other: the claim's isolation property is the value semantics itself. -/
theorem c10_assign_spec (r s : rope) (hs : s.root ≠ Handle.null) :
    rope.assign r s = .ok s ∧ rope.assign s s = .ok s := by
  obtain ⟨sr⟩ := s
  cases sr with
  | null => exact absurd rfl hs
  | node w l rr f => constructor <;> simp [rope.assign, copyNode_id]

/-- Witness for C10 at `r = rope("a")`, `s = rope("bc")`. -/
theorem c10_assign_spec_witness :
    rope.assign (rope.fromString ['a']) (rope.fromString ['b', 'c']) =
      .ok (rope.fromString ['b', 'c']) ∧
    rope.assign (rope.fromString ['b', 'c']) (rope.fromString ['b', 'c']) =
      .ok (rope.fromString ['b', 'c']) :=
  c10_assign_spec (rope.fromString ['a']) (rope.fromString ['b', 'c']) (by decide)

end Rope
